/-
Verification of the shm-agent metric pipeline: a shallow embedding of the
parser → matcher → aggregator chain, the line scanner, and the deployment
probe, together with theorems settling the specified properties.

Conventions of the embedding:
* Go `map[string]T` becomes an association list `List (String × T)`;
  Go maps have unique keys, so lookups take the first match.
* Go `float64` values flowing through records and the aggregator are
  modelled as `Rat`: a JSON decimal literal is represented by its exact
  rational value, and `strconv.FormatFloat(v, 'f', -1, 64)` (shortest
  round-trip form) is modelled as the exact decimal expansion of that
  rational with no trailing zeros.
* Fallible Go returns `(T, bool)` become `Option T`.
* Byte equality of Go strings coincides with `String` equality here.
-/
import Mathlib

namespace ShmAgent

/-! ## Records (parsed lines)

Models the `map[string]interface{}` produced by the parsers: values are
strings, numbers (JSON float64), booleans, nested objects, arrays, null. -/

inductive JValue where
  | str (s : String)
  | num (q : Rat)
  | bool (b : Bool)
  | obj (fields : List (String × JValue))
  | arr (elems : List JValue)
  | null

/-- A parsed record: the top-level string-keyed map. -/
abbrev Rec := List (String × JValue)

/-- First-match association-list lookup (Go map indexing). -/
def lookupL {β : Type} : List (String × β) → String → Option β
  | [], _ => none
  | (k, v) :: rest, n => if k = n then some v else lookupL rest n

/-! ## Field path resolver (parser.GetField / GetFieldString / GetFieldFloat) -/

/-- Walks the dot-separated path through nested objects; mirrors the loop in
`GetField`: each segment must index a mapping. -/
def getFieldAux : JValue → List String → Option JValue
  | v, [] => some v
  | .obj fields, p :: rest =>
    match lookupL fields p with
    | some v => getFieldAux v rest
    | none => none
  | _, _ :: _ => none

/-- `strings.Split(path, ".")` for the one-character separator. -/
def splitDotsAux : List Char → List Char → List String
  | [], acc => [String.mk acc.reverse]
  | c :: cs, acc =>
    if c = '.' then String.mk acc.reverse :: splitDotsAux cs []
    else splitDotsAux cs (c :: acc)

def splitDots (s : String) : List String := splitDotsAux s.toList []

/-- `parser.GetField`: `strings.Split(field, ".")` then walk. -/
def getField (data : Rec) (field : String) : Option JValue :=
  getFieldAux (.obj data) (splitDots field)

/-- Decimal digit character for `n < 10`. -/
def digitChar (n : Nat) : Char :=
  match n with
  | 0 => '0' | 1 => '1' | 2 => '2' | 3 => '3' | 4 => '4'
  | 5 => '5' | 6 => '6' | 7 => '7' | 8 => '8' | _ => '9'

/-- Decimal digits of a natural number, most significant first (fuel-driven). -/
def natDigitsAux : Nat → Nat → List Char
  | 0, _ => []
  | fuel + 1, n =>
    if n < 10 then [digitChar n]
    else natDigitsAux fuel (n / 10) ++ [digitChar (n % 10)]

def natDecimal (n : Nat) : List Char := natDigitsAux (n + 1) n

/-- Decimal rendering of an integer, no decimal point. -/
def intDecimal (i : Int) : String :=
  (if i < 0 then "-" else "") ++ String.mk (natDecimal i.natAbs)

/-- Decimal digits of the fractional part `r / d` (fuel bounds the expansion;
the expansions reachable from float64 values terminate well within it). -/
def fracDigitsAux : Nat → Nat → Nat → List Char
  | 0, _, _ => []
  | fuel + 1, r, d =>
    if r = 0 then []
    else digitChar (r * 10 / d) :: fracDigitsAux fuel (r * 10 % d) d

/-- Models `strconv.FormatFloat(v, 'f', -1, 64)` under the decimal-rational
convention: integral values render with no decimal point, other values as
their exact decimal expansion with no trailing zeros. -/
def formatNum (q : Rat) : String :=
  if q.den = 1 then intDecimal q.num
  else
    (if q.num < 0 then "-" else "") ++
      String.mk (natDecimal (q.num.natAbs / q.den)) ++ "." ++
      String.mk (fracDigitsAux 1200 (q.num.natAbs % q.den) q.den)

/-- The string coercion in `GetFieldString`: the type switch over
string / float64 / int / int64 / bool (ints cannot arise from either parser,
float64 covers all JSON numbers). -/
def coerceString : JValue → Option String
  | .str s => some s
  | .num q => some (formatNum q)
  | .bool b => some (if b then "true" else "false")
  | _ => none

/-- `parser.GetFieldString`. -/
def getFieldString (data : Rec) (field : String) : Option String :=
  (getField data field).bind coerceString

def isDigitCh (c : Char) : Bool := 48 ≤ c.toNat && c.toNat ≤ 57

def digitVal (c : Char) : Nat := c.toNat - 48

/-- Splits a leading run of decimal digits. -/
def takeDigits : List Char → List Char × List Char
  | [] => ([], [])
  | c :: cs =>
    if isDigitCh c then
      let (d, r) := takeDigits cs
      (c :: d, r)
    else ([], c :: cs)

def digitsToNat (l : List Char) : Nat :=
  l.foldl (fun a c => a * 10 + digitVal c) 0

/-- Models `strconv.ParseFloat(s, 64)` restricted to plain decimal forms
`[+-]digits[.digits]` (the only forms the pipeline feeds it). -/
def parseDecimal (s : String) : Option Rat :=
  let cs := s.toList
  let (neg, cs1) :=
    match cs with
    | '-' :: r => (true, r)
    | '+' :: r => (false, r)
    | _ => (false, cs)
  let (ip, cs2) := takeDigits cs1
  if ip = [] then none
  else
    let sgn : Rat := if neg then -1 else 1
    match cs2 with
    | [] => some (sgn * (digitsToNat ip : Rat))
    | '.' :: rest =>
      let (fp, rest2) := takeDigits rest
      if fp = [] then none
      else if rest2 = [] then
        some (sgn * ((digitsToNat ip : Rat) +
          (digitsToNat fp : Rat) / ((10 : Rat) ^ fp.length)))
      else none
    | _ => none

/-- The float coercion in `GetFieldFloat`: numbers pass through, strings are
parsed as decimal floats, everything else fails. -/
def coerceFloat : JValue → Option Rat
  | .num q => some q
  | .str s => parseDecimal s
  | _ => none

/-- `parser.GetFieldFloat`. -/
def getFieldFloat (data : Rec) (field : String) : Option Rat :=
  (getField data field).bind coerceFloat

/-! ## Regular expressions

A small executable engine standing in for Go's `regexp` package (an external
library): a core regex matched by Brzozowski derivatives, plus the optional
`^` / `$` anchors of the source pattern.  `\d` is ASCII `[0-9]`, and `{2}`
repetition is expanded at the AST level, so `^5\d{2}$` is represented as the
fully anchored sequence `5 · \d · \d`. -/

inductive RE where
  | emp
  | eps
  | ch (c : Char)
  | anyDigit
  | seq (a b : RE)
  | alt (a b : RE)
  | star (a : RE)
deriving DecidableEq

def nullable : RE → Bool
  | .emp => false
  | .eps => true
  | .ch _ => false
  | .anyDigit => false
  | .seq a b => nullable a && nullable b
  | .alt a b => nullable a || nullable b
  | .star _ => true

def deriv : RE → Char → RE
  | .emp, _ => .emp
  | .eps, _ => .emp
  | .ch c, d => if c = d then .eps else .emp
  | .anyDigit, d => if isDigitCh d then .eps else .emp
  | .seq a b, d =>
    if nullable a then .alt (.seq (deriv a d) b) (deriv b d)
    else .seq (deriv a d) b
  | .alt a b, d => .alt (deriv a d) (deriv b d)
  | .star a, d => .seq (deriv a d) (.star a)

/-- Whole-list match. -/
def reMatch (r : RE) (s : List Char) : Bool :=
  nullable (s.foldl deriv r)

/-- Does some (possibly empty) leading segment of `s` match `r`? -/
def matchesSomePre (r : RE) : List Char → Bool
  | [] => nullable r
  | c :: cs => nullable r || matchesSomePre (deriv r c) cs

/-- Does some (possibly empty) trailing segment of `s` match `r`? -/
def matchesSomeSuf (r : RE) : List Char → Bool
  | [] => nullable r
  | c :: cs => reMatch r (c :: cs) || matchesSomeSuf r cs

/-- Unanchored search: does any segment of `s` match `r`? -/
def reSearch (r : RE) : List Char → Bool
  | [] => nullable r
  | c :: cs => matchesSomePre r (c :: cs) || reSearch r cs

/-- A compiled Go pattern: the anchor-free core plus whether the source
pattern began with `^` and ended with `$`. -/
structure GoRegex where
  core : RE
  anchorStart : Bool
  anchorEnd : Bool
deriving DecidableEq

/-- `regexp.Regexp.MatchString`: unanchored search, constrained by the
pattern's own anchors. -/
def matchString (g : GoRegex) (s : String) : Bool :=
  match g.anchorStart, g.anchorEnd with
  | true, true => reMatch g.core s.toList
  | true, false => matchesSomePre g.core s.toList
  | false, true => matchesSomeSuf g.core s.toList
  | false, false => reSearch g.core s.toList

/-! ## Config tree (config.Match / config.Extract / config.Metric)

Field names follow the Go structs (lowercased where Go exports them); the
regex pattern string is carried pre-compiled (`none` models the empty
pattern string). -/

structure MatchCfg where
  field : String
  equals : String
  inL : List String
  regex : Option GoRegex
  contains : String
deriving DecidableEq

structure ExtractCfg where
  field : String
deriving DecidableEq

structure MetricCfg where
  name : String
  ty : String
  mcond : Option MatchCfg
  extract : Option ExtractCfg
deriving DecidableEq

/-! ## Matcher (matcher.Matcher) -/

structure Matcher where
  field : String
  equals : String
  inSet : Option (List String)
  regex : Option GoRegex
  contains : String
  always : Bool
deriving DecidableEq

/-- `matcher.New`: a missing `Match` yields the always-true matcher; an `in`
list is materialised only when non-empty (Go leaves the map nil otherwise). -/
def matcherNew : Option MatchCfg → Matcher
  | none => ⟨"", "", none, none, "", true⟩
  | some m =>
    ⟨m.field, m.equals,
      if m.inL.length > 0 then some m.inL else none,
      m.regex, m.contains, false⟩

/-- Substring test over characters (Go `strings.Contains`). -/
def listStartsWith : List Char → List Char → Bool
  | [], _ => true
  | _ :: _, [] => false
  | a :: as, b :: bs => a = b && listStartsWith as bs

def listContainsSub (sub : List Char) : List Char → Bool
  | [] => listStartsWith sub []
  | c :: cs => listStartsWith sub (c :: cs) || listContainsSub sub cs

def containsStr (s sub : String) : Bool := listContainsSub sub.toList s.toList

/-- `matcher.Matcher.Match`: resolve the field as a string (miss ⇒ false),
then apply the first configured predicate in source order. -/
def matcherMatch (m : Matcher) (data : Rec) : Bool :=
  if m.always then true
  else
    match getFieldString data m.field with
    | none => false
    | some val =>
      if m.equals ≠ "" then decide (val = m.equals)
      else
        match m.inSet with
        | some l => l.contains val
        | none =>
          match m.regex with
          | some g => matchString g val
          | none => if m.contains ≠ "" then containsStr val m.contains else false

/-! ## Aggregator (aggregator.Aggregator)

`MetricType` is a Go string type, so `ty` is a plain `String` (registration
accepts arbitrary strings).  The `Set` map becomes a duplicate-free list in
insertion order; only its cardinality is observed.  The mutex disappears:
every exported operation is a single atomic step on the state. -/

structure MetricValue where
  ty : String
  value : Rat
  set : List String
deriving DecidableEq

/-- The metric registry `map[string]*MetricValue`. -/
abbrev Agg := List (String × MetricValue)

def aggFind (a : Agg) (n : String) : Option MetricValue := lookupL a n

/-- Keys are pairwise distinct — true of every Go map. -/
def WF (a : Agg) : Prop := (a.map Prod.fst).Nodup

/-- `Aggregator.Register`: no-op when the name exists, otherwise a fresh
entry of the given type (sets start empty). -/
def register (a : Agg) (name ty : String) : Agg :=
  if (aggFind a name).isSome then a
  else a ++ [(name, ⟨ty, 0, []⟩)]

/-- Rewrites the entry (if any) stored under key `n`. -/
def updateL {β : Type} (l : List (String × β)) (n : String) (f : β → β) :
    List (String × β) :=
  l.map fun p => if p.1 = n then (p.1, f p.2) else p

/-- `Aggregator.Inc`: +1 on counters only; anything else is a silent no-op. -/
def inc (a : Agg) (n : String) : Agg :=
  updateL a n fun m => if m.ty = "counter" then { m with value := m.value + 1 } else m

/-- `Aggregator.SetGauge`: overwrite on gauges only. -/
def setGauge (a : Agg) (n : String) (v : Rat) : Agg :=
  updateL a n fun m => if m.ty = "gauge" then { m with value := v } else m

/-- `Aggregator.Add`: += on sums only. -/
def add (a : Agg) (n : String) (v : Rat) : Agg :=
  updateL a n fun m => if m.ty = "sum" then { m with value := m.value + v } else m

/-- Insertion into the set model: append when absent. -/
def setInsert (s : List String) (v : String) : List String :=
  if v ∈ s then s else s ++ [v]

/-- `Aggregator.AddToSet`: insert on sets only. -/
def addToSet (a : Agg) (n : String) (v : String) : Agg :=
  updateL a n fun m => if m.ty = "set" then { m with set := setInsert m.set v } else m

/-- Observable values: float64 for the numeric types, int for sets. -/
inductive ObsValue where
  | float (q : Rat)
  | int (n : Nat)
deriving DecidableEq

/-- The per-entry case dispatch of `Peek` (counter/gauge/sum expose the
float, set exposes its cardinality, unknown types are skipped — the Go
switch has no default branch). -/
def obs (m : MetricValue) : Option ObsValue :=
  if m.ty = "counter" then some (.float m.value)
  else if m.ty = "gauge" then some (.float m.value)
  else if m.ty = "sum" then some (.float m.value)
  else if m.ty = "set" then some (.int m.set.length)
  else none

/-- `Aggregator.Peek`. -/
def peek (a : Agg) : List (String × ObsValue) :=
  a.filterMap fun p => (obs p.2).map fun v => (p.1, v)

/-- The per-entry step of `Snapshot`: the reported value together with the
entry left behind (counters and sums zeroed, sets emptied, gauges kept,
unknown types untouched and unreported). -/
def snapshotEntry (m : MetricValue) : Option ObsValue × MetricValue :=
  if m.ty = "counter" then (some (.float m.value), { m with value := 0 })
  else if m.ty = "gauge" then (some (.float m.value), m)
  else if m.ty = "sum" then (some (.float m.value), { m with value := 0 })
  else if m.ty = "set" then (some (.int m.set.length), { m with set := [] })
  else (none, m)

/-- `Aggregator.Snapshot`: the reported map plus the post-reset registry. -/
def snapshot (a : Agg) : List (String × ObsValue) × Agg :=
  (a.filterMap fun p => ((snapshotEntry p.2).1).map fun v => (p.1, v),
   a.map fun p => (p.1, (snapshotEntry p.2).2))

/-- `Aggregator.Reset`: every value to 0, sets emptied. -/
def resetAgg (a : Agg) : Agg :=
  a.map fun p =>
    (p.1, { p.2 with value := 0, set := if p.2.ty = "set" then [] else p.2.set })

/-! ## Source processor (agent.sourceProcessor) -/

structure MetricProc where
  cfg : MetricCfg
  matcher : Matcher
deriving DecidableEq

/-- One source's bound pipeline: its parser and its metric processors. -/
structure Processor where
  parse : String → Option Rec
  metrics : List MetricProc

/-- `newSourceProcessor` builds one `metricProcessor` per metric. -/
def mkMetrics (cfgs : List MetricCfg) : List MetricProc :=
  cfgs.map fun c => ⟨c, matcherNew c.mcond⟩

/-- The registrations `newSourceProcessor` performs, in metric order. -/
def registerAll (a : Agg) (cfgs : List MetricCfg) : Agg :=
  cfgs.foldl (fun a c => register a c.name c.ty) a

/-- Mutable processor state: the shared aggregator plus the per-source
observability counters (atomics in the source). -/
structure ProcState where
  agg : Agg
  linesParsed : Nat
  linesMatched : Nat
  parseErrors : Nat
deriving DecidableEq

/-- State at orchestrator startup: metrics registered, counters zero. -/
def initState (cfgs : List MetricCfg) : ProcState :=
  ⟨registerAll [] cfgs, 0, 0, 0⟩

/-- The type-directed update a matched metric applies (the `switch` in
`processLine`): counters increment; gauge/sum extract a float, set extracts
a string, each skipping the metric on a coercion miss or missing extract. -/
def applyMetric (agg : Agg) (c : MetricCfg) (data : Rec) : Agg :=
  if c.ty = "counter" then inc agg c.name
  else if c.ty = "gauge" then
    match c.extract with
    | some e =>
      match getFieldFloat data e.field with
      | some v => setGauge agg c.name v
      | none => agg
    | none => agg
  else if c.ty = "sum" then
    match c.extract with
    | some e =>
      match getFieldFloat data e.field with
      | some v => add agg c.name v
      | none => agg
    | none => agg
  else if c.ty = "set" then
    match c.extract with
    | some e =>
      match getFieldString data e.field with
      | some v => addToSet agg c.name v
      | none => agg
    | none => agg
  else agg

/-- The per-metric step of `processLine`'s loop. -/
def metricStep (data : Rec) (s : ProcState) (m : MetricProc) : ProcState :=
  if matcherMatch m.matcher data then
    { s with linesMatched := s.linesMatched + 1,
             agg := applyMetric s.agg m.cfg data }
  else s

/-- `sourceProcessor.processLine`: parse (miss ⇒ count a parse error and
return), then evaluate every metric in order against the record. -/
def processLine (p : Processor) (st : ProcState) (line : String) : ProcState :=
  match p.parse line with
  | none => { st with parseErrors := st.parseErrors + 1 }
  | some data =>
    p.metrics.foldl (metricStep data)
      { st with linesParsed := st.linesParsed + 1 }

def processLines (p : Processor) (st : ProcState) (lines : List String) : ProcState :=
  lines.foldl (processLine p) st

/-! ## JSON parser (parser.JSONParser)

Models `encoding/json.Unmarshal` into `map[string]interface{}` for the JSON
grammar the pipeline exercises (`\uXXXX` escapes and exponent notation are
out of scope).  Numbers become their exact rational value, duplicate object
keys keep the last occurrence, and the top-level value must be an object
with nothing but whitespace after it — any other input yields `none`. -/

def isWs (c : Char) : Bool := c = ' ' || c = '\t' || c = '\n' || c = '\r'

def skipWs : List Char → List Char
  | [] => []
  | c :: cs => if isWs c then skipWs cs else c :: cs

/-- String literal body after the opening quote, with the common escapes. -/
def parseChars : List Char → List Char → Option (String × List Char)
  | [], _ => none
  | '"' :: rest, acc => some (String.mk acc.reverse, rest)
  | '\\' :: c :: rest, acc =>
    match c with
    | '"' => parseChars rest ('"' :: acc)
    | '\\' => parseChars rest ('\\' :: acc)
    | '/' => parseChars rest ('/' :: acc)
    | 'n' => parseChars rest ('\n' :: acc)
    | 't' => parseChars rest ('\t' :: acc)
    | 'r' => parseChars rest ('\r' :: acc)
    | 'b' => parseChars rest (Char.ofNat 8 :: acc)
    | 'f' => parseChars rest (Char.ofNat 12 :: acc)
    | _ => none
  | c :: rest, acc => if c.toNat < 32 then none else parseChars rest (c :: acc)

/-- JSON number: sign, integer digits (no leading zeros), optional fraction. -/
def parseNum (cs : List Char) : Option (JValue × List Char) :=
  let (neg, cs1) :=
    match cs with
    | '-' :: r => (true, r)
    | _ => (false, cs)
  let (ip, cs2) := takeDigits cs1
  if ip = [] then none
  else if 1 < ip.length ∧ ip.headD '0' = '0' then none
  else
    let sgn : Rat := if neg then -1 else 1
    match cs2 with
    | '.' :: rest =>
      let (fp, rest2) := takeDigits rest
      if fp = [] then none
      else
        some (.num (sgn * ((digitsToNat ip : Rat) +
          (digitsToNat fp : Rat) / ((10 : Rat) ^ fp.length))), rest2)
    | _ => some (.num (sgn * (digitsToNat ip : Rat)), cs2)

/-- Last-occurrence-wins insertion for object members. -/
def objInsert (fields : List (String × JValue)) (k : String) (v : JValue) :
    List (String × JValue) :=
  if (lookupL fields k).isSome then
    fields.map fun p => if p.1 = k then (k, v) else p
  else fields ++ [(k, v)]

mutual

def parseValue : Nat → List Char → Option (JValue × List Char)
  | 0, _ => none
  | fuel + 1, cs =>
    match skipWs cs with
    | [] => none
    | '{' :: rest =>
      match skipWs rest with
      | '}' :: r => some (.obj [], r)
      | r => parseMembers fuel r []
    | '[' :: rest =>
      match skipWs rest with
      | ']' :: r => some (.arr [], r)
      | r => parseElems fuel r []
    | '"' :: rest => (parseChars rest []).map fun p => (.str p.1, p.2)
    | 't' :: 'r' :: 'u' :: 'e' :: rest => some (.bool true, rest)
    | 'f' :: 'a' :: 'l' :: 's' :: 'e' :: rest => some (.bool false, rest)
    | 'n' :: 'u' :: 'l' :: 'l' :: rest => some (.null, rest)
    | c :: rest =>
      if c = '-' || isDigitCh c then parseNum (c :: rest) else none

def parseMembers (fuel : Nat) (cs : List Char)
    (acc : List (String × JValue)) : Option (JValue × List Char) :=
  match fuel with
  | 0 => none
  | fuel + 1 =>
    match skipWs cs with
    | '"' :: rest =>
      match parseChars rest [] with
      | none => none
      | some (k, r1) =>
        match skipWs r1 with
        | ':' :: r2 =>
          match parseValue fuel r2 with
          | none => none
          | some (v, r3) =>
            match skipWs r3 with
            | ',' :: r4 => parseMembers fuel r4 (objInsert acc k v)
            | '}' :: r4 => some (.obj (objInsert acc k v), r4)
            | _ => none
        | _ => none
    | _ => none

def parseElems (fuel : Nat) (cs : List Char)
    (acc : List JValue) : Option (JValue × List Char) :=
  match fuel with
  | 0 => none
  | fuel + 1 =>
    match parseValue fuel cs with
    | none => none
    | some (v, r1) =>
      match skipWs r1 with
      | ',' :: r2 => parseElems fuel r2 (v :: acc)
      | ']' :: r2 => some (.arr (v :: acc).reverse, r2)
      | _ => none

end

/-- `JSONParser.Parse`: unmarshal into a string-keyed map; decode errors,
non-object top-level values and trailing garbage all yield `none`. -/
def jsonParse (line : String) : Option Rec :=
  match parseValue (line.length + 1) line.toList with
  | some (.obj fields, rest) => if skipWs rest = [] then some fields else none
  | _ => none

/-! ## Line scanner (tailer.LineScanner / ProcessReader)

The input stream is a list of bytes; `Scan` reads byte-by-byte to the next
newline, failing once the accumulated line exceeds 1 MiB. -/

def maxLineLen : Nat := 1024 * 1024

inductive ScanResult where
  | line (l : List Nat) (rest : List Nat)
  | eof
  | tooLong
deriving DecidableEq

/-- `LineScanner.Scan`: `buf` is the accumulated prefix of the current line.
A newline yields the buffered line; the length check happens after each
append; EOF yields a final unterminated line when the buffer is non-empty. -/
def scanStep : List Nat → List Nat → ScanResult
  | [], buf => if buf = [] then .eof else .line buf []
  | b :: rest, buf =>
    if b = 10 then .line buf rest
    else if buf.length + 1 > maxLineLen then .tooLong
    else scanStep rest (buf ++ [b])

/-- `ProcessReader`'s loop: repeatedly scan, collecting delivered lines;
the flag records whether the scanner stopped with the too-long error. -/
def runScanner : Nat → List Nat → List (List Nat) × Bool
  | 0, _ => ([], false)
  | fuel + 1, input =>
    match scanStep input [] with
    | .eof => ([], false)
    | .tooLong => ([], true)
    | .line l rest =>
      let (ls, e) := runScanner fuel rest
      (l :: ls, e)

/-- `ProcessReader` with no line limit: every delivered line reaches the
handler in order; the Bool is the too-long failure. -/
def processReader (input : List Nat) : List (List Nat) × Bool :=
  runScanner (input.length + 1) input

/-! ## Deployment probe (sender.detectDeploymentMode)

The probes are embedded exactly as written: `lookupEnv` ignores the process
environment and reports absence, and the file/cgroup probes report false.
`SysEnv` carries the real environment so the intended behaviour (documented
in the source: "wrapper for os.LookupEnv") is expressible alongside. -/

structure SysEnv where
  env : String → Option String
  dockerenvExists : Bool
  cgroupContainer : Bool

/-- The source's `lookupEnv`: returns `("", false)` for every key. -/
def lookupEnv (_e : SysEnv) (_key : String) : Option String := none

/-- The source's `fileExists`: always false. -/
def fileExists (_e : SysEnv) (_path : String) : Bool := false

/-- The source's `isInContainer`: always false. -/
def isInContainer (_e : SysEnv) : Bool := false

/-- `sender.detectDeploymentMode`, exactly as the code composes its probes. -/
def detectDeploymentMode (e : SysEnv) : String :=
  if (lookupEnv e "KUBERNETES_SERVICE_HOST").isSome then "kubernetes"
  else if fileExists e "/.dockerenv" then "docker"
  else if isInContainer e then "container"
  else "standalone"

/-- Modelled from the spec: the probe chain with functional probes — the
Kubernetes service-host variable read from the real environment, then the
`/.dockerenv` marker, then the cgroup indication, else standalone. -/
def detectDeploymentModeSpec (e : SysEnv) : String :=
  if (e.env "KUBERNETES_SERVICE_HOST").isSome then "kubernetes"
  else if e.dockerenvExists then "docker"
  else if e.cgroupContainer then "container"
  else "standalone"

/-! ## Derived notions used by the statements -/

/-- First config registered under a name (mirrors registration order). -/
def findCfg : List MetricCfg → String → Option MetricCfg
  | [], _ => none
  | c :: rest, n => if c.name = n then some c else findCfg rest n

/-- What one line contributes to a set metric: the string-coerced
`Extract.field` of its record, provided the line parses, the metric's
matcher accepts the record, and the coercion succeeds. -/
def lineContribution (parse : String → Option Rec) (m : MetricCfg)
    (e : ExtractCfg) (l : String) : Option String :=
  match parse l with
  | none => none
  | some data =>
    if matcherMatch (matcherNew m.mcond) data then getFieldString data e.field
    else none

/-- The successfully coerced values over a sequence of lines, in order. -/
def matchedCoerced (parse : String → Option Rec) (m : MetricCfg)
    (e : ExtractCfg) (lines : List String) : List String :=
  lines.filterMap (lineContribution parse m e)

/-! ## Concrete scenario data -/

/-- Scenario S1: a counter guarded by `event == "request"` plus an
unconditional sum extracting `bytes`. -/
def s1Cfgs : List MetricCfg :=
  [ ⟨"requests", "counter", some ⟨"event", "request", [], none, ""⟩, none⟩,
    ⟨"total_bytes", "sum", none, some ⟨"bytes"⟩⟩ ]

def s1Proc : Processor := ⟨jsonParse, mkMetrics s1Cfgs⟩

def s1Lines : List String :=
  [ "\x7b\"event\":\"request\",\"bytes\":100\x7d",
    "\x7b\"event\":\"request\",\"bytes\":200\x7d",
    "\x7b\"event\":\"other\",\"bytes\":999\x7d" ]

def s1Final : ProcState := processLines s1Proc (initState s1Cfgs) s1Lines

/-- Scenario S5's line. -/
def statusLine : String := "\x7b\"status\":500\x7d"

/-- The compiled pattern `^5\d{2}$`. -/
def re5xx : GoRegex := ⟨.seq (.ch '5') (.seq .anyDigit .anyDigit), true, true⟩

/-- Matcher for `status equals "500"`. -/
def m500eq : Matcher := matcherNew (some ⟨"status", "500", [], none, ""⟩)

/-- Matcher for `status regex ^5\d{2}$`. -/
def m5xx : Matcher := matcherNew (some ⟨"status", "", [], some re5xx, ""⟩)

/-- Scenario S2 (used as a concrete instance of the set-cardinality law). -/
def s2Cfgs : List MetricCfg := [⟨"unique_users", "set", none, some ⟨"user_id"⟩⟩]

def s2Lines : List String :=
  [ "\x7b\"user_id\":\"a\"\x7d",
    "\x7b\"user_id\":\"b\"\x7d",
    "\x7b\"user_id\":\"a\"\x7d" ]

/-- An environment in which the Kubernetes service-host variable is set. -/
def k8sEnv : SysEnv :=
  ⟨fun k => if k = "KUBERNETES_SERVICE_HOST" then some "10.96.0.1" else none,
   false, false⟩

/-! # Lemmas about association lists and the aggregator -/

theorem lookupL_cons {β : Type} (k : String) (u : β) (rest : List (String × β))
    (n : String) :
    lookupL ((k, u) :: rest) n = if k = n then some u else lookupL rest n := rfl

theorem updateL_cons {β : Type} (k : String) (u : β) (rest : List (String × β))
    (n : String) (f : β → β) :
    updateL ((k, u) :: rest) n f =
      (if k = n then (k, f u) else (k, u)) :: updateL rest n f := by
  by_cases hk : k = n
  · simp [updateL, hk]
  · simp [updateL, hk]

theorem lookupL_append {β : Type} (a b : List (String × β)) (n : String) :
    lookupL (a ++ b) n =
      match lookupL a n with
      | some v => some v
      | none => lookupL b n := by
  induction a with
  | nil => simp [lookupL]
  | cons p rest ih =>
    obtain ⟨k, u⟩ := p
    by_cases hk : k = n
    · rw [List.cons_append, lookupL_cons, if_pos hk, lookupL_cons, if_pos hk]
    · rw [List.cons_append, lookupL_cons, if_neg hk, lookupL_cons, if_neg hk, ih]

theorem lookupL_updateL_self {β : Type} (l : List (String × β)) (n : String)
    (f : β → β) : lookupL (updateL l n f) n = (lookupL l n).map f := by
  induction l with
  | nil => simp [lookupL, updateL]
  | cons p rest ih =>
    obtain ⟨k, u⟩ := p
    rw [updateL_cons, lookupL_cons]
    by_cases hk : k = n
    · rw [if_pos hk, lookupL_cons, if_pos hk, if_pos hk]
      rfl
    · rw [if_neg hk, lookupL_cons, if_neg hk, if_neg hk, ih]

theorem lookupL_updateL_other {β : Type} (l : List (String × β)) (k n : String)
    (f : β → β) (h : k ≠ n) : lookupL (updateL l k f) n = lookupL l n := by
  induction l with
  | nil => simp [lookupL, updateL]
  | cons p rest ih =>
    obtain ⟨k', u⟩ := p
    rw [updateL_cons, lookupL_cons]
    by_cases hk : k' = k
    · have hn : k' ≠ n := fun hcontra => h (hk ▸ hcontra)
      rw [if_pos hk, lookupL_cons, if_neg (hk ▸ hn), if_neg hn, ih]
    · by_cases hn : k' = n
      · rw [if_neg hk, lookupL_cons, if_pos hn, if_pos hn]
      · rw [if_neg hk, lookupL_cons, if_neg hn, if_neg hn, ih]

theorem not_mem_of_lookupL_none {β : Type} {l : List (String × β)} {n : String}
    (h : lookupL l n = none) (v : β) : (n, v) ∉ l := by
  induction l with
  | nil => simp
  | cons p rest ih =>
    by_cases hp : p.1 = n
    · simp [lookupL, hp] at h
    · simp [lookupL, hp] at h
      intro hmem
      rcases List.mem_cons.mp hmem with heq | hmem
      · exact hp (by rw [← heq])
      · exact ih h hmem

theorem lookupL_of_nodup_mem {β : Type} {l : List (String × β)} {n : String}
    {v w : β} (hnd : (l.map Prod.fst).Nodup) (hl : lookupL l n = some v)
    (hmem : (n, w) ∈ l) : w = v := by
  induction l with
  | nil => simp at hmem
  | cons p rest ih =>
    obtain ⟨k, u⟩ := p
    simp only [List.map_cons, List.nodup_cons] at hnd
    rcases List.mem_cons.mp hmem with heq | hmem
    · have hk : k = n := by cases heq; rfl
      have hu : u = w := by cases heq; rfl
      subst hk hu
      simp [lookupL] at hl
      exact hl
    · by_cases hk : k = n
      · exfalso
        apply hnd.1
        subst hk
        exact List.mem_map.mpr ⟨(k, w), hmem, rfl⟩
      · simp [lookupL, hk] at hl
        exact ih hnd.2 hl hmem

theorem updateL_eq_self {β : Type} (l : List (String × β)) (n : String)
    (f : β → β) (h : ∀ v : β, (n, v) ∈ l → f v = v) : updateL l n f = l := by
  induction l with
  | nil => rfl
  | cons p rest ih =>
    obtain ⟨k, u⟩ := p
    have hrest : updateL rest n f = rest :=
      ih fun v hv => h v (List.mem_cons_of_mem _ hv)
    by_cases hk : k = n
    · have hu : f u = u := by
        apply h
        rw [← hk]
        exact List.mem_cons_self _ _
      simp only [updateL, List.map_cons] at hrest ⊢
      simp [hk, hu, hrest]
    · simp only [updateL, List.map_cons] at hrest ⊢
      simp [hk, hrest]

/-- The reported half of a snapshot entry is exactly the peek observation. -/
theorem snapshotEntry_fst (m : MetricValue) : (snapshotEntry m).1 = obs m := by
  unfold snapshotEntry obs
  split_ifs <;> rfl

/-- `Snapshot` reports the same observable map as `Peek`. -/
theorem snapshot_fst_eq_peek (a : Agg) : (snapshot a).1 = peek a := by
  unfold snapshot peek
  simp [snapshotEntry_fst]

theorem lookupL_map_value {β γ : Type} (g : β → γ) (l : List (String × β))
    (n : String) :
    lookupL (l.map fun p => (p.1, g p.2)) n = (lookupL l n).map g := by
  induction l with
  | nil => simp [lookupL]
  | cons p rest ih =>
    obtain ⟨k, u⟩ := p
    by_cases hk : k = n
    · simp only [List.map_cons]
      rw [lookupL_cons, lookupL_cons, if_pos hk, if_pos hk]
      rfl
    · simp only [List.map_cons]
      rw [lookupL_cons, lookupL_cons, if_neg hk, if_neg hk, ih]

theorem peek_cons (k : String) (u : MetricValue) (rest : Agg) :
    peek ((k, u) :: rest) =
      match obs u with
      | some w => (k, w) :: peek rest
      | none => peek rest := by
  unfold peek
  simp only [List.filterMap_cons]
  cases obs u <;> rfl

theorem aggFind_cons (k : String) (u : MetricValue) (rest : Agg) (n : String) :
    aggFind ((k, u) :: rest) n = if k = n then some u else aggFind rest n := rfl

/-- A registered entry whose type is observable appears in `Peek` under its
name with its observation. -/
theorem lookupL_peek_some {a : Agg} {n : String} {mv : MetricValue}
    {w : ObsValue} (hf : aggFind a n = some mv) (ho : obs mv = some w) :
    lookupL (peek a) n = some w := by
  induction a with
  | nil => simp [aggFind, lookupL] at hf
  | cons p rest ih =>
    obtain ⟨k, u⟩ := p
    rw [peek_cons]
    by_cases hk : k = n
    · have hu : u = mv := by
        rw [aggFind_cons, if_pos hk] at hf
        exact Option.some.inj hf
      subst hu
      rw [ho]
      simp only
      rw [lookupL_cons, if_pos hk]
    · have hf' : aggFind rest n = some mv := by
        rw [aggFind_cons, if_neg hk] at hf
        exact hf
      have hrec := ih hf'
      cases hobs : obs u with
      | none => simpa using hrec
      | some w' =>
        simp only
        rw [lookupL_cons, if_neg hk]
        exact hrec

theorem aggFind_none_of_not_key {a : Agg} {n : String}
    (h : n ∉ a.map Prod.fst) : aggFind a n = none := by
  induction a with
  | nil => rfl
  | cons p rest ih =>
    obtain ⟨k, u⟩ := p
    simp only [List.map_cons, List.mem_cons] at h
    push_neg at h
    rw [aggFind_cons, if_neg (fun hkn => h.1 hkn.symm)]
    exact ih h.2

theorem lookupL_peek_of_find_none {a : Agg} {n : String}
    (h : aggFind a n = none) : lookupL (peek a) n = none := by
  induction a with
  | nil => rfl
  | cons p rest ih =>
    obtain ⟨k, u⟩ := p
    rw [aggFind_cons] at h
    by_cases hk : k = n
    · rw [if_pos hk] at h
      exact absurd h (by simp)
    · rw [if_neg hk] at h
      rw [peek_cons]
      cases hobs : obs u with
      | none => exact ih h
      | some w' =>
        simp only
        rw [lookupL_cons, if_neg hk]
        exact ih h

/-- A registered entry of unobservable type is absent from `Peek` (given the
map invariant that keys are unique). -/
theorem lookupL_peek_none {a : Agg} {n : String} {mv : MetricValue}
    (hwf : WF a) (hf : aggFind a n = some mv) (ho : obs mv = none) :
    lookupL (peek a) n = none := by
  induction a with
  | nil => simp [peek, lookupL]
  | cons p rest ih =>
    obtain ⟨k, u⟩ := p
    simp only [WF, List.map_cons, List.nodup_cons] at hwf
    rw [peek_cons]
    by_cases hk : k = n
    · have hu : u = mv := by
        rw [aggFind_cons, if_pos hk] at hf
        exact Option.some.inj hf
      subst hu
      rw [ho]
      apply lookupL_peek_of_find_none
      apply aggFind_none_of_not_key
      rw [← hk]
      exact hwf.1
    · have hf' : aggFind rest n = some mv := by
        rw [aggFind_cons, if_neg hk] at hf
        exact hf
      have hrec := ih hwf.2 hf'
      cases hobs : obs u with
      | none => exact hrec
      | some w' =>
        simp only
        rw [lookupL_cons, if_neg hk]
        exact hrec

/-! ## Write operations as no-ops -/

theorem inc_noop {a : Agg} {n : String} (hwf : WF a)
    (h : ∀ mv, aggFind a n = some mv → mv.ty ≠ "counter") : inc a n = a := by
  apply updateL_eq_self
  intro v hv
  cases hfind : aggFind a n with
  | none => exact absurd hv (not_mem_of_lookupL_none hfind v)
  | some mv =>
    have hveq : v = mv := lookupL_of_nodup_mem hwf hfind hv
    rw [if_neg (hveq ▸ h mv hfind)]

theorem setGauge_noop {a : Agg} {n : String} {v : Rat} (hwf : WF a)
    (h : ∀ mv, aggFind a n = some mv → mv.ty ≠ "gauge") : setGauge a n v = a := by
  apply updateL_eq_self
  intro u hu
  cases hfind : aggFind a n with
  | none => exact absurd hu (not_mem_of_lookupL_none hfind u)
  | some mv =>
    have hueq : u = mv := lookupL_of_nodup_mem hwf hfind hu
    rw [if_neg (hueq ▸ h mv hfind)]

theorem add_noop {a : Agg} {n : String} {v : Rat} (hwf : WF a)
    (h : ∀ mv, aggFind a n = some mv → mv.ty ≠ "sum") : add a n v = a := by
  apply updateL_eq_self
  intro u hu
  cases hfind : aggFind a n with
  | none => exact absurd hu (not_mem_of_lookupL_none hfind u)
  | some mv =>
    have hueq : u = mv := lookupL_of_nodup_mem hwf hfind hu
    rw [if_neg (hueq ▸ h mv hfind)]

theorem addToSet_noop {a : Agg} {n : String} {s : String} (hwf : WF a)
    (h : ∀ mv, aggFind a n = some mv → mv.ty ≠ "set") : addToSet a n s = a := by
  apply updateL_eq_self
  intro u hu
  cases hfind : aggFind a n with
  | none => exact absurd hu (not_mem_of_lookupL_none hfind u)
  | some mv =>
    have hueq : u = mv := lookupL_of_nodup_mem hwf hfind hu
    rw [if_neg (hueq ▸ h mv hfind)]

/-! # Claim theorems -/

/-- C4: for every well-formed aggregator state and name, each write
operation — Inc, SetGauge, Add, AddToSet — leaves the state unchanged
whenever the name is unregistered or the registered metric's type differs
from the operation's type; the Go signatures return nothing, so no error
can be reported. -/
theorem writes_are_typed_noops (a : Agg) (n : String) (v : Rat) (s : String)
    (hwf : WF a) :
    ((∀ mv, aggFind a n = some mv → mv.ty ≠ "counter") → inc a n = a) ∧
    ((∀ mv, aggFind a n = some mv → mv.ty ≠ "gauge") → setGauge a n v = a) ∧
    ((∀ mv, aggFind a n = some mv → mv.ty ≠ "sum") → add a n v = a) ∧
    ((∀ mv, aggFind a n = some mv → mv.ty ≠ "set") → addToSet a n s = a) :=
  ⟨fun h => inc_noop hwf h, fun h => setGauge_noop hwf h,
   fun h => add_noop hwf h, fun h => addToSet_noop hwf h⟩

/-- Witness for C4 at a concrete state: a gauge entry plus an unregistered
name; the counter increment on the gauge and every write on the missing
name are no-ops. -/
theorem writes_are_typed_noops_witness :
    WF [("g", ⟨"gauge", 7, []⟩)] ∧
    inc [("g", (⟨"gauge", 7, []⟩ : MetricValue))] "g" = [("g", ⟨"gauge", 7, []⟩)] ∧
    add [("g", (⟨"gauge", 7, []⟩ : MetricValue))] "missing" 3 =
      [("g", ⟨"gauge", 7, []⟩)] := by
  refine ⟨by unfold WF; decide, ?_, ?_⟩
  · exact (writes_are_typed_noops [("g", ⟨"gauge", 7, []⟩)] "g" 3 "x"
      (by unfold WF; decide)).1 (by intro mv hmv; cases hmv; decide)
  · exact (writes_are_typed_noops [("g", ⟨"gauge", 7, []⟩)] "missing" 3 "x"
      (by unfold WF; decide)).2.2.1 (by intro mv hmv; cases hmv)

/-- C5: registering a name that is already registered — with any type — is
a no-op: the state, including the metric's original type and accumulated
value, is unchanged. -/
theorem register_idempotent (a : Agg) (n t : String)
    (h : (aggFind a n).isSome) : register a n t = a := by
  unfold register
  rw [if_pos h]

/-- Witness for C5: re-registering a populated counter under a different
type changes nothing. -/
theorem register_idempotent_witness :
    register [("c", (⟨"counter", 5, []⟩ : MetricValue))] "c" "gauge" =
      [("c", ⟨"counter", 5, []⟩)] :=
  register_idempotent [("c", ⟨"counter", 5, []⟩)] "c" "gauge" (by decide)

/-- C3: when the source's parser fails on a line, `processLine` leaves the
aggregator — hence every metric's state — untouched and increments only the
per-source parse-error counter, by exactly one. -/
theorem parse_miss_is_frame (p : Processor) (st : ProcState) (line : String)
    (h : p.parse line = none) :
    (processLine p st line).agg = st.agg ∧
    (processLine p st line).parseErrors = st.parseErrors + 1 ∧
    (processLine p st line).linesParsed = st.linesParsed ∧
    (processLine p st line).linesMatched = st.linesMatched := by
  unfold processLine
  rw [h]
  exact ⟨rfl, rfl, rfl, rfl⟩

/-- Witness for C3: the JSON source parser rejects `not json`, so processing
it only bumps the parse-error counter. -/
theorem parse_miss_is_frame_witness :
    (processLine s1Proc (initState s1Cfgs) "not json").agg =
      (initState s1Cfgs).agg ∧
    (processLine s1Proc (initState s1Cfgs) "not json").parseErrors =
      (initState s1Cfgs).parseErrors + 1 := by
  have hnone : s1Proc.parse "not json" = none :=
    Option.isNone_iff_eq_none.mp (by with_unfolding_all decide)
  have h := parse_miss_is_frame s1Proc (initState s1Cfgs) "not json" hnone
  exact ⟨h.1, h.2.1⟩

theorem snapshotEntry_of_ty (mv : MetricValue) :
    (mv.ty = "counter" →
        snapshotEntry mv = (some (.float mv.value), { mv with value := 0 })) ∧
    (mv.ty = "gauge" → snapshotEntry mv = (some (.float mv.value), mv)) ∧
    (mv.ty = "sum" →
        snapshotEntry mv = (some (.float mv.value), { mv with value := 0 })) ∧
    (mv.ty = "set" →
        snapshotEntry mv = (some (.int mv.set.length), { mv with set := [] })) := by
  refine ⟨fun h => ?_, fun h => ?_, fun h => ?_, fun h => ?_⟩ <;>
    simp [snapshotEntry, h]

theorem aggFind_snapshot_snd (a : Agg) (n : String) (mv : MetricValue)
    (hf : aggFind a n = some mv) :
    aggFind (snapshot a).2 n = some (snapshotEntry mv).2 := by
  have h := lookupL_map_value (fun m => (snapshotEntry m).2) a n
  unfold aggFind at hf
  rw [hf] at h
  exact h

/-- C1: snapshot reports the same observable map as peek; and for every
registered metric, a peek taken right after the snapshot shows 0 for
counters and sums, cardinality 0 for sets, and the pre-snapshot value for
gauges, while the snapshot itself reported each metric's pre-reset
observable value. -/
theorem snapshot_observes_then_resets (a : Agg) :
    (snapshot a).1 = peek a ∧
    ∀ n mv, aggFind a n = some mv →
      ((mv.ty = "counter" ∨ mv.ty = "sum") →
          lookupL (snapshot a).1 n = some (.float mv.value) ∧
          lookupL (peek (snapshot a).2) n = some (.float 0)) ∧
      (mv.ty = "gauge" →
          lookupL (snapshot a).1 n = some (.float mv.value) ∧
          lookupL (peek (snapshot a).2) n = some (.float mv.value)) ∧
      (mv.ty = "set" →
          lookupL (snapshot a).1 n = some (.int mv.set.length) ∧
          lookupL (peek (snapshot a).2) n = some (.int 0)) := by
  refine ⟨snapshot_fst_eq_peek a, ?_⟩
  intro n mv hf
  have hsnd := aggFind_snapshot_snd a n mv hf
  refine ⟨fun hty => ?_, fun hty => ?_, fun hty => ?_⟩
  · rcases hty with hty | hty
    · constructor
      · rw [snapshot_fst_eq_peek]
        exact lookupL_peek_some hf (by simp [obs, hty])
      · rw [(snapshotEntry_of_ty mv).1 hty] at hsnd
        exact lookupL_peek_some hsnd (by simp [obs, hty])
    · constructor
      · rw [snapshot_fst_eq_peek]
        exact lookupL_peek_some hf (by simp [obs, hty])
      · rw [(snapshotEntry_of_ty mv).2.2.1 hty] at hsnd
        exact lookupL_peek_some hsnd (by simp [obs, hty])
  · constructor
    · rw [snapshot_fst_eq_peek]
      exact lookupL_peek_some hf (by simp [obs, hty])
    · rw [(snapshotEntry_of_ty mv).2.1 hty] at hsnd
      exact lookupL_peek_some hsnd (by simp [obs, hty])
  · constructor
    · rw [snapshot_fst_eq_peek]
      exact lookupL_peek_some hf (by simp [obs, hty])
    · rw [(snapshotEntry_of_ty mv).2.2.2 hty] at hsnd
      exact lookupL_peek_some hsnd (by simp [obs, hty])

/-- Witness for C1 at a concrete registry holding one metric of each type:
scenario S4's shape — after snapshot, peek shows counter 0, sum 0, set
cardinality 0 and the gauge's old value. -/
theorem snapshot_observes_then_resets_witness :
    lookupL (peek (snapshot [("c", (⟨"counter", 2, []⟩ : MetricValue)),
        ("g", ⟨"gauge", 20, []⟩), ("s", ⟨"sum", 3, []⟩),
        ("u", ⟨"set", 0, ["a", "b"]⟩)]).2) "c" = some (.float 0) ∧
    lookupL (peek (snapshot [("c", (⟨"counter", 2, []⟩ : MetricValue)),
        ("g", ⟨"gauge", 20, []⟩), ("s", ⟨"sum", 3, []⟩),
        ("u", ⟨"set", 0, ["a", "b"]⟩)]).2) "g" = some (.float 20) ∧
    lookupL (peek (snapshot [("c", (⟨"counter", 2, []⟩ : MetricValue)),
        ("g", ⟨"gauge", 20, []⟩), ("s", ⟨"sum", 3, []⟩),
        ("u", ⟨"set", 0, ["a", "b"]⟩)]).2) "u" = some (.int 0) := by
  have h := snapshot_observes_then_resets [("c", ⟨"counter", 2, []⟩),
    ("g", ⟨"gauge", 20, []⟩), ("s", ⟨"sum", 3, []⟩),
    ("u", ⟨"set", 0, ["a", "b"]⟩)]
  refine ⟨?_, ?_, ?_⟩
  · exact ((h.2 "c" ⟨"counter", 2, []⟩ (by decide)).1 (Or.inl rfl)).2
  · exact ((h.2 "g" ⟨"gauge", 20, []⟩ (by decide)).2.1 rfl).2
  · exact ((h.2 "u" ⟨"set", 0, ["a", "b"]⟩ (by decide)).2.2 rfl).2

/-- C10 (implicit): a registered entry whose type string is none of
counter/gauge/sum/set is invisible to both Peek and Snapshot, and every
write operation on its name leaves the state unchanged. -/
theorem unknown_type_invisible (a : Agg) (n : String) (mv : MetricValue)
    (v : Rat) (s : String) (hwf : WF a) (hf : aggFind a n = some mv)
    (h1 : mv.ty ≠ "counter") (h2 : mv.ty ≠ "gauge") (h3 : mv.ty ≠ "sum")
    (h4 : mv.ty ≠ "set") :
    lookupL (peek a) n = none ∧ lookupL (snapshot a).1 n = none ∧
    inc a n = a ∧ setGauge a n v = a ∧ add a n v = a ∧ addToSet a n s = a := by
  have ho : obs mv = none := by simp [obs, h1, h2, h3, h4]
  have hty : ∀ t : String, mv.ty ≠ t →
      ∀ m, aggFind a n = some m → m.ty ≠ t := by
    intro t ht m hm
    rw [hf] at hm
    rw [(Option.some.inj hm).symm]
    exact ht
  refine ⟨lookupL_peek_none hwf hf ho, ?_, inc_noop hwf (hty _ h1),
    setGauge_noop hwf (hty _ h2), add_noop hwf (hty _ h3),
    addToSet_noop hwf (hty _ h4)⟩
  rw [snapshot_fst_eq_peek]
  exact lookupL_peek_none hwf hf ho

/-- Witness for C10 at a registry holding one entry of type `"weird"`. -/
theorem unknown_type_invisible_witness :
    lookupL (peek [("w", (⟨"weird", 9, []⟩ : MetricValue))]) "w" = none ∧
    inc [("w", (⟨"weird", 9, []⟩ : MetricValue))] "w" = [("w", ⟨"weird", 9, []⟩)] := by
  have h := unknown_type_invisible [("w", ⟨"weird", 9, []⟩)] "w" ⟨"weird", 9, []⟩
    4 "x" (by unfold WF; decide) (by decide) (by decide) (by decide) (by decide)
    (by decide)
  exact ⟨h.1, h.2.2.1⟩

/-- C9: contrary to the claim, `detectDeploymentMode` cannot return
`"kubernetes"` even when the Kubernetes service-host variable is present,
because its `lookupEnv` helper — documented in the source as a wrapper for
`os.LookupEnv` — ignores the environment and always reports absence (as do
the docker and cgroup probes): on an environment carrying
`KUBERNETES_SERVICE_HOST` the code yields `"standalone"` where the
spec-modelled probe chain yields `"kubernetes"`. -/
theorem detect_mode_ignores_environment :
    detectDeploymentMode k8sEnv = "standalone" ∧
    (k8sEnv.env "KUBERNETES_SERVICE_HOST").isSome = true ∧
    detectDeploymentModeSpec k8sEnv = "kubernetes" := by
  refine ⟨rfl, ?_, ?_⟩ <;> decide

set_option maxRecDepth 1000000

/-- C2: scenario S1 — under a counter guarded by `event == "request"` and a
matcher-less sum extracting `bytes`, the three fixture lines leave peek at
`requests = 2.0` and `total_bytes = 1299.0`; the sum also absorbs the third
line's 999 because a missing match condition is an always-true matcher. -/
theorem scenario_s1_counts :
    (∀ data : Rec, matcherMatch (matcherNew none) data = true) ∧
    lookupL (peek s1Final.agg) "requests" = some (.float 2) ∧
    lookupL (peek s1Final.agg) "total_bytes" = some (.float 1299) := by
  refine ⟨fun data => rfl, ?_, ?_⟩ <;> with_unfolding_all decide

theorem digitChar_mem_digits (k : Nat) :
    digitChar k ∈ ['0', '1', '2', '3', '4', '5', '6', '7', '8', '9'] := by
  unfold digitChar
  split <;> decide

theorem natDigitsAux_no_dot (fuel : Nat) : ∀ n, '.' ∉ natDigitsAux fuel n := by
  induction fuel with
  | zero => intro n; simp [natDigitsAux]
  | succ f ih =>
    intro n
    have hd := digitChar_mem_digits n
    have hm := digitChar_mem_digits (n % 10)
    unfold natDigitsAux
    by_cases h : n < 10
    · simp only [h, if_true, List.mem_singleton]
      intro heq
      rw [← heq] at hd
      exact absurd hd (by decide)
    · simp only [h, if_false, List.mem_append, List.mem_singleton]
      rintro (hin | heq)
      · exact ih (n / 10) hin
      · rw [← heq] at hm
        exact absurd hm (by decide)

theorem intDecimal_no_dot (i : Int) : '.' ∉ (intDecimal i).toList := by
  unfold intDecimal
  have hdigits := natDigitsAux_no_dot (i.natAbs + 1) i.natAbs
  by_cases h : i < 0 <;>
    simpa [h, String.toList, natDecimal] using hdigits

/-- C7: resolving a record field as a string passes strings through,
renders numbers via the canonical decimal form — in particular with no
decimal point when the value is integral — maps booleans to
`"true"`/`"false"`, and fails on objects, arrays and null; consequently the
JSON line `{"status":500}` satisfies both the `equals "500"` matcher and
the `regex ^5\d{2}$` matcher on field `status`. -/
theorem string_coercion_cases :
    (∀ data f, getFieldString data f = (getField data f).bind coerceString) ∧
    (∀ s, coerceString (.str s) = some s) ∧
    (∀ q : Rat, coerceString (.num q) = some (formatNum q)) ∧
    (∀ q : Rat, q.den = 1 →
        formatNum q = intDecimal q.num ∧ '.' ∉ (formatNum q).toList) ∧
    (coerceString (.bool true) = some "true" ∧
     coerceString (.bool false) = some "false") ∧
    (∀ fields, coerceString (.obj fields) = none) ∧
    (∀ es, coerceString (.arr es) = none) ∧
    coerceString .null = none ∧
    (jsonParse statusLine).map (matcherMatch m500eq) = some true ∧
    (jsonParse statusLine).map (matcherMatch m5xx) = some true := by
  refine ⟨fun data f => rfl, fun s => rfl, fun q => rfl, fun q hq => ?_,
    ⟨rfl, rfl⟩, fun fields => rfl, fun es => rfl, rfl, ?_, ?_⟩
  · have hfmt : formatNum q = intDecimal q.num := by
      unfold formatNum
      rw [if_pos hq]
    exact ⟨hfmt, hfmt ▸ intDecimal_no_dot q.num⟩
  · with_unfolding_all decide
  · with_unfolding_all decide

/-- Witness for C7: the integral rational 500 renders as `"500"` with no
decimal point. -/
theorem string_coercion_cases_witness :
    (500 : Rat).den = 1 ∧ formatNum 500 = intDecimal (500 : Rat).num ∧
    '.' ∉ (formatNum 500).toList := by
  have h := string_coercion_cases.2.2.2.1 500 (by with_unfolding_all decide)
  exact ⟨by with_unfolding_all decide, h.1, h.2⟩

theorem scanStep_cons (b : Nat) (l buf : List Nat) :
    scanStep (b :: l) buf =
      if b = 10 then .line buf l
      else if buf.length + 1 > maxLineLen then .tooLong
      else scanStep l (buf ++ [b]) := rfl

theorem scanStep_delivers : ∀ (line : List Nat), 10 ∉ line →
    ∀ (buf rest : List Nat), buf.length + line.length ≤ maxLineLen →
    scanStep (line ++ 10 :: rest) buf = .line (buf ++ line) rest := by
  intro line
  induction line with
  | nil =>
    intro _ buf rest _
    rw [List.nil_append, scanStep_cons, if_pos rfl, List.append_nil]
  | cons b line' ih =>
    intro hmem buf rest hlen
    have hb : b ≠ 10 := by
      intro hcontra
      exact hmem (by rw [hcontra] at *; exact List.mem_cons_self _ _)
    simp only [List.mem_cons] at hmem
    push_neg at hmem
    rw [List.cons_append, scanStep_cons, if_neg hb]
    have hok : ¬ (buf.length + 1 > maxLineLen) := by
      simp only [List.length_cons] at hlen
      omega
    rw [if_neg hok]
    have := ih (fun hc => hmem.2 hc) (buf ++ [b]) rest
      (by simp only [List.length_append, List.length_cons,
        List.length_nil] at hlen ⊢; omega)
    rw [this, List.append_assoc]
    rfl

theorem scanStep_too_long : ∀ (line : List Nat), 10 ∉ line →
    ∀ (buf rest : List Nat), buf.length ≤ maxLineLen →
    maxLineLen < buf.length + line.length →
    scanStep (line ++ 10 :: rest) buf = .tooLong := by
  intro line
  induction line with
  | nil =>
    intro _ buf rest hle hgt
    simp only [List.length_nil, Nat.add_zero] at hgt
    omega
  | cons b line' ih =>
    intro hmem buf rest hle hgt
    have hb : b ≠ 10 := by
      intro hcontra
      exact hmem (by rw [hcontra] at *; exact List.mem_cons_self _ _)
    simp only [List.mem_cons] at hmem
    push_neg at hmem
    rw [List.cons_append, scanStep_cons, if_neg hb]
    by_cases hover : buf.length + 1 > maxLineLen
    · rw [if_pos hover]
    · rw [if_neg hover]
      apply ih (fun hc => hmem.2 hc) (buf ++ [b]) rest
      · simp only [List.length_append, List.length_cons, List.length_nil]
        omega
      · simp only [List.length_append, List.length_cons, List.length_nil] at hgt ⊢
        omega

theorem runScanner_nil (f : Nat) : runScanner (f + 1) [] = ([], false) := rfl

/-- C8: a line (no newline inside) of length at most 1 MiB — 1048576 bytes —
is delivered whole by the scanner, and reaches `ProcessReader`'s handler
intact; a longer line makes the scan fail with the too-long error, which
`ProcessReader` surfaces instead of delivering anything.  The bound is
exactly 1 MiB, so a line of 1048576 bytes succeeds and one of 1048577
bytes fails. -/
theorem line_scanner_boundary (line rest : List Nat) (h10 : 10 ∉ line) :
    (line.length ≤ maxLineLen →
        scanStep (line ++ 10 :: rest) [] = .line line rest ∧
        processReader (line ++ [10]) = ([line], false)) ∧
    (maxLineLen < line.length →
        scanStep (line ++ 10 :: rest) [] = .tooLong ∧
        processReader (line ++ [10]) = ([], true)) ∧
    maxLineLen = 1024 * 1024 := by
  refine ⟨fun hle => ?_, fun hgt => ?_, rfl⟩
  · have hscan := scanStep_delivers line h10 [] rest (by simpa using hle)
    rw [List.nil_append] at hscan
    refine ⟨hscan, ?_⟩
    have hscan' := scanStep_delivers line h10 [] [] (by simpa using hle)
    rw [List.nil_append] at hscan'
    unfold processReader
    have hlen : (line ++ [10]).length + 1 = line.length + 1 + 1 := by simp
    rw [hlen]
    unfold runScanner
    rw [hscan']
    rfl
  · have hscan := scanStep_too_long line h10 [] rest (by simp [maxLineLen])
      (by simpa using hgt)
    refine ⟨hscan, ?_⟩
    have hscan' := scanStep_too_long line h10 [] [] (by simp [maxLineLen])
      (by simpa using hgt)
    unfold processReader
    have hlen : (line ++ [10]).length + 1 = line.length + 1 + 1 := by simp
    rw [hlen]
    unfold runScanner
    rw [hscan']

/-- Witness for C8: a one-byte line is delivered whole. -/
theorem line_scanner_boundary_witness :
    (10 : Nat) ∉ [120] ∧ scanStep ([120] ++ 10 :: []) [] = .line [120] [] ∧
    processReader ([120] ++ [10]) = ([[120]], false) := by
  have h := (line_scanner_boundary [120] [] (by decide)).1 (by decide)
  exact ⟨by decide, h.1, h.2⟩

/-! ## Registration and per-entry evolution (toward the set-metric law) -/

theorem aggFind_register (a : Agg) (k t n : String) :
    aggFind (register a k t) n =
      match aggFind a n with
      | some mv => some mv
      | none => if k = n then some ⟨t, 0, []⟩ else none := by
  unfold register aggFind
  by_cases hk : (lookupL a k).isSome
  · rw [if_pos hk]
    cases h : lookupL a n with
    | some mv => rfl
    | none =>
      simp only
      by_cases hkn : k = n
      · subst hkn
        rw [h] at hk
        simp at hk
      · rw [if_neg hkn]
  · rw [if_neg hk]
    rw [lookupL_append]
    cases h : lookupL a n with
    | some mv => rfl
    | none =>
      simp only
      rw [lookupL_cons]
      rfl

theorem findCfg_cons (c : MetricCfg) (rest : List MetricCfg) (n : String) :
    findCfg (c :: rest) n = if c.name = n then some c else findCfg rest n := rfl

theorem registerAll_find : ∀ (cfgs : List MetricCfg) (a : Agg) (n : String),
    aggFind (registerAll a cfgs) n =
      match aggFind a n with
      | some mv => some mv
      | none => (findCfg cfgs n).map fun c => (⟨c.ty, 0, []⟩ : MetricValue) := by
  intro cfgs
  induction cfgs with
  | nil =>
    intro a n
    cases h : aggFind a n <;> simp [registerAll, findCfg, h]
  | cons c rest ih =>
    intro a n
    show aggFind (registerAll (register a c.name c.ty) rest) n = _
    rw [ih, aggFind_register]
    cases h : aggFind a n with
    | some mv => rfl
    | none =>
      simp only
      rw [findCfg_cons]
      by_cases hkn : c.name = n
      · rw [if_pos hkn, if_pos hkn]
        rfl
      · rw [if_neg hkn, if_neg hkn]

theorem findCfg_of_mem_nodup {cfgs : List MetricCfg} {m : MetricCfg}
    (hnd : (cfgs.map MetricCfg.name).Nodup) (hm : m ∈ cfgs) :
    findCfg cfgs m.name = some m := by
  induction cfgs with
  | nil => simp at hm
  | cons c rest ih =>
    simp only [List.map_cons, List.nodup_cons] at hnd
    rcases List.mem_cons.mp hm with heq | hmem
    · subst heq
      rw [findCfg_cons, if_pos rfl]
    · have hne : c.name ≠ m.name := by
        intro hcontra
        exact hnd.1 (hcontra ▸ List.mem_map.mpr ⟨m, hmem, rfl⟩)
      rw [findCfg_cons, if_neg hne]
      exact ih hnd.2 hmem

theorem applyMetric_find_other (agg : Agg) (c : MetricCfg) (data : Rec)
    (n : String) (h : c.name ≠ n) :
    aggFind (applyMetric agg c data) n = aggFind agg n := by
  unfold applyMetric
  split_ifs with h1 h2 h3 h4
  · exact lookupL_updateL_other agg c.name n _ h
  · cases c.extract with
    | none => rfl
    | some e =>
      show aggFind (match getFieldFloat data e.field with
        | some v => setGauge agg c.name v
        | none => agg) n = aggFind agg n
      cases getFieldFloat data e.field with
      | none => rfl
      | some v => exact lookupL_updateL_other agg c.name n _ h
  · cases c.extract with
    | none => rfl
    | some e =>
      show aggFind (match getFieldFloat data e.field with
        | some v => add agg c.name v
        | none => agg) n = aggFind agg n
      cases getFieldFloat data e.field with
      | none => rfl
      | some v => exact lookupL_updateL_other agg c.name n _ h
  · cases c.extract with
    | none => rfl
    | some e =>
      show aggFind (match getFieldString data e.field with
        | some v => addToSet agg c.name v
        | none => agg) n = aggFind agg n
      cases getFieldString data e.field with
      | none => rfl
      | some v => exact lookupL_updateL_other agg c.name n _ h
  · rfl

theorem addToSet_find_set {agg : Agg} {n : String} {mv : MetricValue}
    (hf : aggFind agg n = some mv) (hty : mv.ty = "set") (v : String) :
    aggFind (addToSet agg n v) n = some { mv with set := setInsert mv.set v } := by
  show lookupL (updateL agg n _) n = _
  rw [lookupL_updateL_self]
  unfold aggFind at hf
  rw [hf]
  simp [hty]

theorem applyMetric_set (agg : Agg) {m : MetricCfg} {e : ExtractCfg}
    (data : Rec) (hty : m.ty = "set") (hx : m.extract = some e) :
    applyMetric agg m data =
      match getFieldString data e.field with
      | some v => addToSet agg m.name v
      | none => agg := by
  unfold applyMetric
  have hc : m.ty ≠ "counter" := by rw [hty]; decide
  have hg : m.ty ≠ "gauge" := by rw [hty]; decide
  have hs : m.ty ≠ "sum" := by rw [hty]; decide
  rw [if_neg hc, if_neg hg, if_neg hs, if_pos hty, hx]

theorem metricStep_set_entry {m : MetricCfg} {e : ExtractCfg}
    (hty : m.ty = "set") (hx : m.extract = some e) (data : Rec)
    (st : ProcState) {mv : MetricValue}
    (hf : aggFind st.agg m.name = some mv) (hmvty : mv.ty = "set") :
    aggFind ((metricStep data st ⟨m, matcherNew m.mcond⟩).agg) m.name =
      some { mv with set :=
        match (if matcherMatch (matcherNew m.mcond) data = true
               then getFieldString data e.field else none) with
        | some v => setInsert mv.set v
        | none => mv.set } := by
  unfold metricStep
  by_cases hmatch : matcherMatch (matcherNew m.mcond) data = true
  · rw [if_pos hmatch, if_pos hmatch]
    show aggFind (applyMetric st.agg m data) m.name = _
    rw [applyMetric_set st.agg data hty hx]
    cases hgf : getFieldString data e.field with
    | some v =>
      simp only
      rw [addToSet_find_set hf hmvty v]
    | none =>
      simp only
      rw [hf]
  · rw [if_neg hmatch, if_neg hmatch]
    rw [hf]

theorem fold_preserves_other (data : Rec) :
    ∀ (ms : List MetricProc) (st : ProcState) (n : String),
    (∀ mp ∈ ms, mp.cfg.name ≠ n) →
    aggFind ((ms.foldl (metricStep data) st).agg) n = aggFind st.agg n := by
  intro ms
  induction ms with
  | nil => intro st n _; rfl
  | cons mp rest ih =>
    intro st n h
    show aggFind ((rest.foldl (metricStep data) (metricStep data st mp)).agg) n = _
    rw [ih (metricStep data st mp) n fun x hx => h x (List.mem_cons_of_mem _ hx)]
    unfold metricStep
    by_cases hmatch : matcherMatch mp.matcher data = true
    · rw [if_pos hmatch]
      exact applyMetric_find_other st.agg mp.cfg data n
        (h mp (List.mem_cons_self _ _))
    · rw [if_neg hmatch]

theorem processLine_set_entry (parse : String → Option Rec)
    {pre post : List MetricCfg} {m : MetricCfg} {e : ExtractCfg}
    (hpre : m.name ∉ pre.map MetricCfg.name)
    (hpost : m.name ∉ post.map MetricCfg.name)
    (hty : m.ty = "set") (hx : m.extract = some e)
    (st : ProcState) (line : String) {mv : MetricValue}
    (hf : aggFind st.agg m.name = some mv) (hmvty : mv.ty = "set") :
    aggFind ((processLine ⟨parse, mkMetrics (pre ++ m :: post)⟩ st line).agg)
        m.name =
      some { mv with set :=
        match lineContribution parse m e line with
        | some v => setInsert mv.set v
        | none => mv.set } := by
  unfold processLine lineContribution
  cases hparse : parse line with
  | none =>
    simp only [hparse]
    rw [hf]
  | some data =>
    simp only [hparse]
    have hsplit : mkMetrics (pre ++ m :: post) =
        mkMetrics pre ++ (⟨m, matcherNew m.mcond⟩ :: mkMetrics post) := by
      simp [mkMetrics]
    rw [hsplit, List.foldl_append, List.foldl_cons]
    have hprenames : ∀ mp ∈ mkMetrics pre, mp.cfg.name ≠ m.name := by
      intro mp hmp hcontra
      rcases List.mem_map.mp hmp with ⟨c, hc, hceq⟩
      apply hpre
      rw [← hcontra, ← hceq]
      exact List.mem_map.mpr ⟨c, hc, rfl⟩
    have hpostnames : ∀ mp ∈ mkMetrics post, mp.cfg.name ≠ m.name := by
      intro mp hmp hcontra
      rcases List.mem_map.mp hmp with ⟨c, hc, hceq⟩
      apply hpost
      rw [← hcontra, ← hceq]
      exact List.mem_map.mpr ⟨c, hc, rfl⟩
    have hstep := metricStep_set_entry hty hx data
      ((mkMetrics pre).foldl (metricStep data)
        { st with linesParsed := st.linesParsed + 1 })
      (by rw [fold_preserves_other data _ _ _ hprenames]; exact hf) hmvty
    rw [fold_preserves_other data _ _ _ hpostnames, hstep]

theorem processLines_set_entry (parse : String → Option Rec)
    {pre post : List MetricCfg} {m : MetricCfg} {e : ExtractCfg}
    (hpre : m.name ∉ pre.map MetricCfg.name)
    (hpost : m.name ∉ post.map MetricCfg.name)
    (hty : m.ty = "set") (hx : m.extract = some e) :
    ∀ (lines : List String) (st : ProcState) (mv : MetricValue),
    aggFind st.agg m.name = some mv → mv.ty = "set" →
    aggFind ((processLines ⟨parse, mkMetrics (pre ++ m :: post)⟩ st lines).agg)
        m.name =
      some { mv with set :=
        (matchedCoerced parse m e lines).foldl setInsert mv.set } := by
  intro lines
  induction lines with
  | nil =>
    intro st mv hf _
    show aggFind st.agg m.name = _
    rw [hf]
    rfl
  | cons l ls ih =>
    intro st mv hf hmvty
    show aggFind ((processLines _
      (processLine ⟨parse, mkMetrics (pre ++ m :: post)⟩ st l) ls).agg) m.name = _
    have hline := processLine_set_entry parse hpre hpost hty hx st l hf hmvty
    have hrec := ih (processLine ⟨parse, mkMetrics (pre ++ m :: post)⟩ st l)
      _ hline hmvty
    rw [hrec]
    have hsets : (matchedCoerced parse m e ls).foldl setInsert
        (match lineContribution parse m e l with
         | some v => setInsert mv.set v
         | none => mv.set) =
        (matchedCoerced parse m e (l :: ls)).foldl setInsert mv.set := by
      simp only [matchedCoerced, List.filterMap_cons]
      cases hcontrib : lineContribution parse m e l with
      | some v => rfl
      | none => rfl
    rw [hsets]

theorem setInsert_nodup {S : List String} (h : S.Nodup) (v : String) :
    (setInsert S v).Nodup := by
  unfold setInsert
  split_ifs with hv
  · exact h
  · simp [List.nodup_append, h, hv]

theorem setInsert_toFinset (S : List String) (v : String) :
    (setInsert S v).toFinset = insert v S.toFinset := by
  unfold setInsert
  split_ifs with hv
  · exact (Finset.insert_eq_self.mpr (List.mem_toFinset.mpr hv)).symm
  · ext x
    simp [or_comm]

theorem foldl_setInsert_nodup : ∀ (L S : List String), S.Nodup →
    (L.foldl setInsert S).Nodup := by
  intro L
  induction L with
  | nil => intro S h; exact h
  | cons v L' ih =>
    intro S h
    exact ih (setInsert S v) (setInsert_nodup h v)

theorem foldl_setInsert_toFinset : ∀ (L S : List String),
    (L.foldl setInsert S).toFinset = S.toFinset ∪ L.toFinset := by
  intro L
  induction L with
  | nil => intro S; simp
  | cons v L' ih =>
    intro S
    rw [List.foldl_cons, ih (setInsert S v), setInsert_toFinset]
    ext x
    simp [or_comm, or_assoc, or_left_comm]

/-- C6: for a set metric with an extract field (unique metric names, as the
config validator guarantees), after processing any sequence of lines from
the freshly registered state, peek reports — as an integer — the number of
distinct string-coerced extract values over the parsed-and-matched lines
whose coercion succeeded, distinctness being string (byte) equality. -/
theorem set_metric_cardinality (parse : String → Option Rec)
    (cfgs : List MetricCfg) (m : MetricCfg) (e : ExtractCfg)
    (lines : List String) (hnd : (cfgs.map MetricCfg.name).Nodup)
    (hm : m ∈ cfgs) (hty : m.ty = "set") (hx : m.extract = some e) :
    lookupL (peek (processLines ⟨parse, mkMetrics cfgs⟩ (initState cfgs)
        lines).agg) m.name =
      some (.int (matchedCoerced parse m e lines).toFinset.card) := by
  have hinit : aggFind (initState cfgs).agg m.name = some ⟨m.ty, 0, []⟩ := by
    show aggFind (registerAll [] cfgs) m.name = _
    rw [registerAll_find]
    show ((findCfg cfgs m.name).map fun c => (⟨c.ty, 0, []⟩ : MetricValue)) = _
    rw [findCfg_of_mem_nodup hnd hm]
    rfl
  obtain ⟨pre, post, hdecomp⟩ := List.append_of_mem hm
  subst hdecomp
  have hnames := hnd
  rw [List.map_append, List.map_cons] at hnames
  rw [List.nodup_append] at hnames
  have hpre : m.name ∉ pre.map MetricCfg.name := by
    intro hcontra
    exact hnames.2.2 hcontra (List.mem_cons_self _ _)
  have hpost : m.name ∉ post.map MetricCfg.name := by
    have := hnames.2.1
    rw [List.nodup_cons] at this
    exact this.1
  have hfinal := processLines_set_entry parse hpre hpost hty hx lines
    (initState (pre ++ m :: post)) ⟨m.ty, 0, []⟩ hinit hty
  have hobs : obs { (⟨m.ty, 0, []⟩ : MetricValue) with
      set := (matchedCoerced parse m e lines).foldl setInsert [] } =
      some (.int ((matchedCoerced parse m e lines).foldl setInsert []).length) := by
    simp [obs, hty]
  rw [lookupL_peek_some hfinal hobs]
  have hnodup : ((matchedCoerced parse m e lines).foldl setInsert
      ([] : List String)).Nodup :=
    foldl_setInsert_nodup _ [] (by simp)
  have hcard := List.toFinset_card_of_nodup hnodup
  rw [foldl_setInsert_toFinset] at hcard
  simp only [List.toFinset_nil, Finset.empty_union] at hcard
  rw [← hcard]

/-- Witness for C6 at scenario S2: three lines with user ids a, b, a give
set cardinality 2. -/
theorem set_metric_cardinality_witness :
    lookupL (peek (processLines ⟨jsonParse, mkMetrics s2Cfgs⟩
        (initState s2Cfgs) s2Lines).agg) "unique_users" =
      some (.int (matchedCoerced jsonParse (⟨"unique_users", "set", none,
        some ⟨"user_id"⟩⟩ : MetricCfg) ⟨"user_id"⟩ s2Lines).toFinset.card) ∧
    (matchedCoerced jsonParse (⟨"unique_users", "set", none,
        some ⟨"user_id"⟩⟩ : MetricCfg) ⟨"user_id"⟩ s2Lines).toFinset.card = 2 := by
  constructor
  · exact set_metric_cardinality jsonParse s2Cfgs
      ⟨"unique_users", "set", none, some ⟨"user_id"⟩⟩ ⟨"user_id"⟩ s2Lines
      (by decide) (by decide) rfl rfl
  · with_unfolding_all decide

end ShmAgent
